import Mathlib

/-!
Verification of the 1001-gbot arbitrage core: token-identifier
normalization (`toPipeId`), the cycle scanner (`ArbitrageScanner.scanOnce`,
progress-tracking variant), the opportunity ranker (`index.ts` main loop),
and the cycle executor (`ArbitrageExecutor.tryExecute`).

Texts are modelled as lists of characters (`Str`); JavaScript string
primitives (`trim`, `includes`, `split`, `startsWith`, `slice(1)`) become
the corresponding list operations.  `BigNumber` amounts are modelled as
exact rationals; of the arithmetic operations the code uses, only `div`
rounds (to the library's default 20 decimal places, ties away from zero),
which `bnDiv` models exactly — see `profitCalc` for the one remaining
approximation, the final float64 conversion.  The asynchronous quoting
and swap collaborators are
modelled as oracles: a quote oracle maps the index of the quote call and
the exact-input amount to `Option ℚ` (`none` models a thrown provider
error), and a swap oracle maps the hop index to `Bool` (`false` models a
thrown submission error).
-/

namespace GBot

/-- A JavaScript string, modelled as its list of characters. -/
abbrev Str := List Char

/-- Whitespace as removed by `String.prototype.trim` (the common ASCII
whitespace characters; the exotic Unicode whitespace code points play no
role in this code base). -/
def isWS (c : Char) : Bool :=
  c = ' ' || c = '\t' || c = '\n' || c = '\r'

/-- Remove trailing whitespace. -/
def trimR (l : Str) : Str := (l.reverse.dropWhile isWS).reverse

/-- The JavaScript `String.prototype.trim`: remove leading and trailing
whitespace. -/
def trimWS (l : Str) : Str := trimR (l.dropWhile isWS)

/-- The character class `[A-Za-z0-9:_-]` of the normalizer's regex. -/
def isIdChar (c : Char) : Bool :=
  (('A' ≤ c && c ≤ 'Z') || ('a' ≤ c && c ≤ 'z') || c.isDigit
    || c = ':' || c = '_' || c = '-')

/-- One regex group `[A-Za-z0-9:_-]+`: a nonempty run of id characters. -/
def isIdSeg (l : Str) : Bool := !l.isEmpty && l.all isIdChar

/-- Split a list at every occurrence of the character `c`
(`String.prototype.split` with a one-character separator). -/
def splitCh (c : Char) : Str → List Str
  | [] => [[]]
  | x :: xs =>
    if x = c then [] :: splitCh c xs
    else
      match splitCh c xs with
      | [] => [[x]]
      | g :: gs => (x :: g) :: gs

/-- Does the string start with the marker character, as tested by
`m[1].startsWith('$')`? -/
def startsDollar : Str → Bool
  | c :: _ => c = '$'
  | [] => false

/-- The match of `/^(\$?[A-Za-z0-9:_-]+)\$(Unit)\$([A-Za-z0-9:_-]+)\$([A-Za-z0-9:_-]+)$/`,
returning the four capture groups.  Because the id-character class excludes
the separator `'$'`, the regex matches exactly when splitting on `'$'`
yields the four groups directly (no leading marker) or an empty head
followed by the four groups (leading marker, which then belongs to
group 1). -/
def matchDollar (dollar : Str) : Option (Str × Str × Str × Str) :=
  match splitCh '$' dollar with
  | [s1, s2, s3, s4] =>
    if isIdSeg s1 && s2 = "Unit".data && isIdSeg s3 && isIdSeg s4 then
      some (s1, s2, s3, s4)
    else none
  | [s0, s1, s2, s3, s4] =>
    if s0.isEmpty && isIdSeg s1 && s2 = "Unit".data && isIdSeg s3 && isIdSeg s4 then
      some ('$' :: s1, s2, s3, s4)
    else none
  | _ => none

/-- The `toDollar` helper of `toPipeId`: a string that already contains a
`'$'` is passed through; otherwise the default class, subclass and network
are appended.  (In the source the `startsWith('$')` branch is unreachable —
any string starting with `'$'` already contains one — and both remaining
branches append the same suffix; the branch is kept here as written.) -/
def toDollar (s : Str) : Str :=
  if s.contains '$' then s
  else if startsDollar s then s ++ "$Unit$none$none".data
  else s ++ "$Unit$none$none".data

/-- The normalizer `toPipeId` (identical in `arbitrageExecutor.ts`, `arbitrageScanner.ts`
and the unnamed scanner variants): trim; any string containing `'|'` is
returned as-is; otherwise expand to dollar form, match the canonical
four-part dollar pattern (failing with the invalid-identifier error,
modelled as `none`), strip a leading marker from the symbol, and join the
four fields with pipes. -/
def toPipeId (input : Str) : Option Str :=
  if (trimWS input).contains '|' then some (trimWS input)
  else
    match matchDollar (toDollar (trimWS input)) with
    | none => none
    | some (m1, m2, m3, m4) =>
      some ((if startsDollar m1 then m1.drop 1 else m1) ++
        '|' :: m2 ++ '|' :: m3 ++ '|' :: m4)

example : toPipeId "GALA".data = some "GALA|Unit|none|none".data := by decide
example : toPipeId "GALA$Unit$none$none".data = some "GALA|Unit|none|none".data := by decide
example : toPipeId "GALA|Unit|none|none".data = some "GALA|Unit|none|none".data := by decide
example : toPipeId "$GMUSIC".data = none := by decide
example : toPipeId "$GMUSIC$Unit$none$none".data = some "GMUSIC|Unit|none|none".data := by decide
example : toPipeId "Token$Unit$WEN$client:604161f025e6931a676ccf37".data
    = some "Token|Unit|WEN|client:604161f025e6931a676ccf37".data := by decide
example : toPipeId "a|b".data = some "a|b".data := by decide
example : toPipeId "  GALA ".data = some "GALA|Unit|none|none".data := by decide
example : toPipeId "G ALA".data = none := by decide

/-! ## The scanner (`ArbitrageScanner.scanOnce`)

Model of the progress-tracking variant of `scanOnce`; its per-candidate
quoting logic (hop chaining, zero-output aborts, profit computation,
opportunity shape) is letter-for-letter the same as in
`src/arbitrageScanner.ts`, which additionally lacks the counters.
Wall-clock fields (`startedAt`, `lastUpdateAt`, `elapsedMs`), the
`perBaseCounts` map and the `searched` log-label list affect only log
output and are not modelled. -/

/-- The helper `symOf s` is `s.split('|')[0]`: the symbol part of a pipe id. -/
def symOf (s : Str) : Str := s.takeWhile (fun c => c ≠ '|')

/-- An arbitrage opportunity as pushed by the scanner. -/
structure Opportunity where
  hops : Nat
  tokens : List Str
  fees : List Nat
  path : Str
  profitBps : ℚ
  deriving DecidableEq, Repr

/-- The scan-session counters of `ScanProgress` that the claims concern. -/
structure Progress where
  pairsTried : Nat
  quotesRequested : Nat
  quotesOk : Nat
  quotesErr : Nat
  totalQuotesPlanned : Nat
  deriving DecidableEq, Repr

def Progress.init : Progress := ⟨0, 0, 0, 0, 0⟩

/-- One quote call: `quotesRequested++`, then ask the quote oracle `q`
(indexed by the running call count); on a successful response also
`quotesOk++`.  A `none` response models a thrown provider error, whose
`quotesErr++` happens at the enclosing `catch`. -/
def doQuote (q : Nat → ℚ → Option ℚ) (st : Progress) (amt : ℚ) : Progress × Option ℚ :=
  let st1 := { st with quotesRequested := st.quotesRequested + 1 }
  match q st.quotesRequested amt with
  | some a => ({ st1 with quotesOk := st1.quotesOk + 1 }, some a)
  | none => (st1, none)

/-- The `catch` branch: `quotesErr++`. -/
def bumpErr (st : Progress) : Progress := { st with quotesErr := st.quotesErr + 1 }

/-- Rounding to the nearest integer, ties away from zero: BigNumber's
default `ROUNDING_MODE` 4 (`ROUND_HALF_UP`). -/
def bnRound (y : ℚ) : ℤ := if 0 ≤ y then ⌊y + 1 / 2⌋ else -⌊-y + 1 / 2⌋

/-- The quotient as `BigNumber.prototype.div` computes it: the exact
quotient rounded to `DECIMAL_PLACES` decimal places — 20, the library
default, since the repository never calls `BigNumber.config`.  (Division
by zero, which BigNumber maps to Infinity/NaN, does not occur: the probe
and trade amounts are positive.) -/
def bnDiv (a b : ℚ) : ℚ := (bnRound (a / b * 10 ^ 20) : ℚ) / 10 ^ 20

/-- The profit metric `out.minus(probe).div(probe).multipliedBy(10_000)`:
`minus` and `multipliedBy` are exact in BigNumber, `div` rounds to 20
decimal places (`bnDiv`).  This is the exact BigNumber value; the
program's final `.toNumber()` converts it to a float64, a further rounding
that floating point places outside the shallow embedding. -/
def profitCalc (probe out : ℚ) : ℚ := bnDiv (out - probe) probe * 10000

/-- The path label `A.split('|')[0] -> B.split('|')[0] -> ...`. -/
def path2 (A B : Str) : Str :=
  symOf A ++ "->".data ++ symOf B ++ "->".data ++ symOf A

def path3 (A B C : Str) : Str :=
  symOf A ++ "->".data ++ symOf B ++ "->".data ++ symOf C ++ "->".data ++ symOf A

/-- One candidate cycle: a 2-hop `A→B→A` with its two fee tiers, or a
3-hop `A→B→C→A` with its three fee tiers. -/
inductive Cand where
  | two (A B : Str) (f1 f2 : Nat)
  | three (A B C : Str) (f1 f2 f3 : Nat)
  deriving DecidableEq, Repr

/-- The body of the innermost fee loop for one candidate: bump
`pairsTried` and `totalQuotesPlanned` (+2 per 2-hop, +3 per 3-hop
candidate), then quote the hops in order, chaining each output into the
next input; abort on a thrown quote (`quotesErr++`) and on a zero output
of a *non-final* hop; a fully quoted cycle yields one opportunity. -/
def runCand (q : Nat → ℚ → Option ℚ) (probe : ℚ) (st : Progress) :
    Cand → Progress × Option Opportunity
  | .two A B f1 f2 =>
    let st := { st with pairsTried := st.pairsTried + 1,
                        totalQuotesPlanned := st.totalQuotesPlanned + 2 }
    match doQuote q st probe with
    | (st, none) => (bumpErr st, none)
    | (st, some out1) =>
      if out1 = 0 then (st, none)
      else
        match doQuote q st out1 with
        | (st, none) => (bumpErr st, none)
        | (st, some out2) =>
          (st, some ⟨2, [A, B, A], [f1, f2], path2 A B, profitCalc probe out2⟩)
  | .three A B C f1 f2 f3 =>
    let st := { st with pairsTried := st.pairsTried + 1,
                        totalQuotesPlanned := st.totalQuotesPlanned + 3 }
    match doQuote q st probe with
    | (st, none) => (bumpErr st, none)
    | (st, some out1) =>
      if out1 = 0 then (st, none)
      else
        match doQuote q st out1 with
        | (st, none) => (bumpErr st, none)
        | (st, some out2) =>
          if out2 = 0 then (st, none)
          else
            match doQuote q st out2 with
            | (st, none) => (bumpErr st, none)
            | (st, some out3) =>
              (st, some ⟨3, [A, B, C, A], [f1, f2, f3], path3 A B C,
                profitCalc probe out3⟩)

/-- Run the candidates in order, threading the progress counters and
collecting the pushed opportunities. -/
def runAll (q : Nat → ℚ → Option ℚ) (probe : ℚ) :
    List Cand → Progress → Progress × List Opportunity
  | [], st => (st, [])
  | c :: cs, st =>
    let r := runCand q probe st c
    let rest := runAll q probe cs r.1
    (rest.1, r.2.toList ++ rest.2)

/-- The fee combinations of the 2-hop loops `for fAB of feeTiers, for fBA
of feeTiers`. -/
def cands2 (fees : List Nat) (A B : Str) : List Cand :=
  fees.flatMap fun f1 => fees.map fun f2 => Cand.two A B f1 f2

/-- The fee combinations of the 3-hop loops. -/
def cands3 (fees : List Nat) (A B C : Str) : List Cand :=
  fees.flatMap fun f1 => fees.flatMap fun f2 => fees.map fun f3 =>
    Cand.three A B C f1 f2 f3

/-- The candidate enumeration of the nested scan loops, flattened in
exactly the order the source visits them: for each base `A`, for each
`B ≠ A` of the universe, the 2-hop fee combinations, then (only when
`maxHops ≥ 3`) for each `C ∉ {A, B}` the 3-hop fee combinations. -/
def candsAll (bases univ : List Str) (fees : List Nat) (maxHops : Nat) :
    List Cand :=
  bases.flatMap fun A =>
    (univ.filter fun B => decide (B ≠ A)).flatMap fun B =>
      cands2 fees A B ++
        (if maxHops < 3 then []
         else (univ.filter fun C => decide (C ≠ A) && decide (C ≠ B)).flatMap
           fun C => cands3 fees A B C)

/-- Deduplication `Array.from(new Set(xs))`, keeping first occurrences. -/
def dedupFirst (l : List Str) : List Str := go [] l where
  go (seen : List Str) : List Str → List Str
    | [] => []
    | x :: xs => if seen.contains x then go seen xs else x :: go (x :: seen) xs

/-- Normalization of a list, `xs.map(toPipeId)`, propagating the
invalid-identifier error. -/
def mapToPipe : List Str → Option (List Str)
  | [] => some []
  | x :: xs =>
    match toPipeId x, mapToPipe xs with
    | some y, some ys => some (y :: ys)
    | _, _ => none

/-- The scanner configuration fields that `scanOnce` reads. -/
structure ScanCfg where
  baseSymbols : List Str
  tokens : List Str
  feeTiers : List Nat
  probeAmount : ℚ
  maxHops : Nat

/-- The scan entry point `scanOnce`: normalize the bases and the
(deduplicated) universe —
a normalization error propagates out of the call (`none`) — then walk all
candidates with freshly reset progress counters, returning the final
counters and the opportunity list. -/
def scanOnce (q : Nat → ℚ → Option ℚ) (cfg : ScanCfg) :
    Option (Progress × List Opportunity) :=
  match mapToPipe cfg.baseSymbols, mapToPipe cfg.tokens with
  | some bases, some toks =>
    some (runAll q cfg.probeAmount
      (candsAll bases (dedupFirst toks) cfg.feeTiers cfg.maxHops) Progress.init)
  | _, _ => none

/-! ## The ranker (`index.ts` main loop)

`opps.filter(o => (o.profitBps ?? 0) >= ARB_MIN_PROFIT_BPS)
     .sort((a,b) => (b.profitBps ?? 0) - (a.profitBps ?? 0))`.
`profitBps` is always set on a scanner opportunity, so the `?? 0` defaults
never fire.  The comparison sort is modelled by an insertion sort for the
comparator's order (descending `profitBps`); the claims depend only on the
key order of the result, which every correct comparison sort shares. -/

def insertDesc (o : Opportunity) : List Opportunity → List Opportunity
  | [] => [o]
  | x :: xs =>
    if decide (x.profitBps ≤ o.profitBps) then o :: x :: xs
    else x :: insertDesc o xs

def sortDesc : List Opportunity → List Opportunity
  | [] => []
  | x :: xs => insertDesc x (sortDesc xs)

/-- The ranking step: threshold filter, then sort descending by
`profitBps`. -/
def rank (opps : List Opportunity) (minBps : ℚ) : List Opportunity :=
  sortDesc (opps.filter fun o => decide (minBps ≤ o.profitBps))

/-! ## The executor (`ArbitrageExecutor.tryExecute`)

`Date.now()` is read twice per successful call: once at entry (`now`, used
by the cooldown and dedupe checks) and once after the hop loop (`now2`,
stored in `lastExecAt` and the dedupe map); both are passed explicitly.
The per-hop slippage floor `minOut` is computed and passed to the swap
collaborator, which is abstracted by the swap oracle, so the floor value
itself is not observable in the model. -/

/-- The executor configuration fields `tryExecute` reads. -/
structure ExecCfg where
  enabled : Bool
  tradeUsd : ℚ
  maxHopsExec : Nat
  cooldownMs : Int
  dedupeWindowMs : Int

/-- The `ExecutionGuardState`: `lastExecAt` and the `recentPaths` map
(`pathHash -> timestamp`), modelled as an association list.  Only
`Map.get`/`Map.set` are used in the source, for which the model is
observationally the same. -/
structure ExecState where
  lastExecAt : Int
  recentPaths : List (Str × Int)
  deriving DecidableEq, Repr

def ExecState.init : ExecState := ⟨0, []⟩

/-- Lookup, `Map.prototype.get`. -/
def lookupPath : List (Str × Int) → Str → Option Int
  | [], _ => none
  | kv :: rest, ph => if kv.1 = ph then some kv.2 else lookupPath rest ph

/-- Update, `Map.prototype.set`. -/
def setPath (l : List (Str × Int)) (ph : Str) (t : Int) : List (Str × Int) :=
  (ph, t) :: l.filter fun kv => decide (kv.1 ≠ ph)

/-- Decimal rendering of a fee tier, for the path hash. -/
def natStr (n : Nat) : Str := (toString n).data

/-- Join with a separator (`Array.prototype.join`). -/
def joinSep (sep : Str) : List Str → Str
  | [] => []
  | [x] => x
  | x :: xs => x ++ sep ++ joinSep sep xs

/-- The path signature `pathHash(tokens, fees) = tokens.join('>') + '|' + fees.join(',')`. -/
def pathHash (tokens : List Str) (fees : List Nat) : Str :=
  joinSep ">".data tokens ++ '|' :: joinSep ",".data (fees.map natStr)

/-- Indexing `opp.tokens[i]`, with a JavaScript out-of-bounds access modelled by the
empty string (`toPipeId` coerces `undefined` with `input || ''`). -/
def tokAt (tokens : List Str) (i : Nat) : Str := (tokens.get? i).getD []

/-- The hop loop of `tryExecute` with `executeHop` inlined: for each hop,
normalize both endpoint tokens (a normalization error is thrown and
caught), quote the running amount (oracle `q`, indexed by hop), submit the
swap fire-and-forget (oracle `sw`; `false` models a throw), and carry the
*quoted* output into the next hop.  Returns the final quoted amount (or
`none` for an abort) together with the number of swap submissions made. -/
def execHops (tokens : List Str) (q : Nat → ℚ → Option ℚ) (sw : Nat → Bool) :
    Nat → Nat → ℚ → Option ℚ × Nat
  | _, 0, amt => (some amt, 0)
  | i, n + 1, amt =>
    match toPipeId (tokAt tokens i), toPipeId (tokAt tokens (i + 1)) with
    | some _, some _ =>
      match q i amt with
      | none => (none, 0)
      | some out =>
        if sw i then
          let r := execHops tokens q sw (i + 1) n out
          (r.1, r.2 + 1)
        else (none, 1)
    | _, _ => (none, 0)

/-- The result of one `tryExecute` call: the returned boolean, the guard
state after the call, and how many swap submissions were made. -/
structure ExecOutcome where
  ok : Bool
  st : ExecState
  swaps : Nat
  deriving DecidableEq, Repr

/-- The dedupe test `lastSeen && (now - lastSeen) < dedupeWindowMs`: note
the JavaScript truthiness check on `lastSeen`, which also demands a
non-zero stored timestamp. -/
def dedupeHit (st : ExecState) (now w : Int) (ph : Str) : Bool :=
  match lookupPath st.recentPaths ph with
  | some t => decide (t ≠ 0) && decide (now - t < w)
  | none => false

/-- The entry point `tryExecute(opp)`: disabled / hops-bound / cooldown / dedupe guards in
order, each returning `false` without touching state or submitting a swap;
then the hop loop inside `try`, whose failure is caught and reported as
`false` (state unchanged); on completion `lastExecAt` and the path's
dedupe timestamp are set to the fresh `now2` and `true` is returned. -/
def tryExecute (cfg : ExecCfg) (st : ExecState) (now now2 : Int)
    (q : Nat → ℚ → Option ℚ) (sw : Nat → Bool) (opp : Opportunity) : ExecOutcome :=
  if cfg.enabled = false then ⟨false, st, 0⟩
  else if cfg.maxHopsExec < opp.hops then ⟨false, st, 0⟩
  else if now - st.lastExecAt < cfg.cooldownMs then ⟨false, st, 0⟩
  else if dedupeHit st now cfg.dedupeWindowMs (pathHash opp.tokens opp.fees) then
    ⟨false, st, 0⟩
  else
    match execHops opp.tokens q sw 0 opp.hops cfg.tradeUsd with
    | (some _, k) =>
      ⟨true, ⟨now2, setPath st.recentPaths (pathHash opp.tokens opp.fees) now2⟩, k⟩
    | (none, k) => ⟨false, st, k⟩

/-! ## Concrete instances used to exercise the theorems -/

/-- A quote oracle for the happy path: first hop quotes 1000, second 102. -/
def qGood : Nat → ℚ → Option ℚ
  | 0, _ => some 1000
  | 1, _ => some 102
  | _, _ => none

/-- A quote oracle whose second (final) hop quotes exactly zero. -/
def qZeroFinal : Nat → ℚ → Option ℚ
  | 0, _ => some 1000
  | _, _ => some 0

/-- A quote oracle that always quotes zero. -/
def qZero : Nat → ℚ → Option ℚ := fun _ _ => some 0

/-- A quote oracle for the profit property: probe 100 in, 101 out. -/
def qProfit : Nat → ℚ → Option ℚ
  | 0, _ => some 1000
  | 1, _ => some 101
  | _, _ => none

/-- A quote oracle for the rounding counterexample: the final hop returns
4 against a probe of 3, a quotient the 20-decimal-place division cannot
represent. -/
def qThird : Nat → ℚ → Option ℚ
  | 0, _ => some 1000
  | 1, _ => some 4
  | _, _ => none

/-- A quote oracle that always throws. -/
def qThrow : Nat → ℚ → Option ℚ := fun _ _ => none

/-- A quote oracle that always succeeds. -/
def qOne : Nat → ℚ → Option ℚ := fun _ _ => some 1

/-- A swap oracle that always succeeds. -/
def swOk : Nat → Bool := fun _ => true

/-- A small scan configuration: one base, a two-token universe, one fee
tier, probe amount 100, `maxHops = 2`. -/
def cfgSmall : ScanCfg :=
  ⟨["GUSDC".data], ["GUSDC".data, "GALA".data], [500], 100, 2⟩

/-- The small scan configuration with probe amount 3. -/
def cfgProbe3 : ScanCfg :=
  ⟨["GUSDC".data], ["GUSDC".data, "GALA".data], [500], 3, 2⟩

/-- The canonical pipe ids of the small configuration. -/
def gusdcP : Str := "GUSDC|Unit|none|none".data

def galaP : Str := "GALA|Unit|none|none".data

/-- A concrete executor configuration: enabled, trade 50, up to 3 hops,
cooldown 5 ms, dedupe window 600 ms. -/
def cfgExec : ExecCfg := ⟨true, 50, 3, 5, 600⟩

/-- A concrete 2-hop opportunity over the small universe. -/
def oppSmall : Opportunity :=
  ⟨2, [gusdcP, galaP, gusdcP], [500, 500], "GUSDC->GALA->GUSDC".data, 200⟩

/-- An opportunity with a negative profit, for the ranker. -/
def oppNeg : Opportunity :=
  ⟨2, [gusdcP, galaP, gusdcP], [500, 500], "GUSDC->GALA->GUSDC".data, -5⟩


/-- The opportunity the happy-path scan produces. -/
def oppGood : Opportunity :=
  ⟨2, [gusdcP, galaP, gusdcP], [500, 500], "GUSDC->GALA->GUSDC".data,
    profitCalc 100 102⟩

/-- The opportunity the profit-property scan produces. -/
def oppProfit : Opportunity :=
  ⟨2, [gusdcP, galaP, gusdcP], [500, 500], "GUSDC->GALA->GUSDC".data,
    profitCalc 100 101⟩

/-- The progress counters after one fully quoted 2-hop candidate. -/
def progTwo : Progress := ⟨1, 2, 2, 0, 2⟩

/-- The executor guard state after one successful execution at time 110. -/
def stAfter : ExecState := ⟨110, [(pathHash oppSmall.tokens oppSmall.fees, 110)]⟩

/-! ## Lemmas -/


theorem dropWhile_idem (p : Char → Bool) (l : Str) :
    (l.dropWhile p).dropWhile p = l.dropWhile p := by
  induction l with
  | nil => rfl
  | cons a l ih =>
    by_cases h : p a = true
    · simp [List.dropWhile_cons, h, ih]
    · simp [List.dropWhile_cons, h]

theorem trimR_idem (l : Str) : trimR (trimR l) = trimR l := by
  unfold trimR
  rw [List.reverse_reverse, dropWhile_idem]

theorem trimR_cons_of_neg {a : Char} {l : Str} (h : isWS a = false) :
    trimR (a :: l) = a :: trimR l := by
  unfold trimR
  rw [List.reverse_cons, List.dropWhile_append]
  by_cases he : (l.reverse.dropWhile isWS).isEmpty = true
  · rw [if_pos he]
    rw [List.isEmpty_iff] at he
    simp [List.dropWhile_cons, h, he]
  · rw [if_neg he]
    simp [List.dropWhile_cons, h]

theorem dropWhile_trimR_comm (l : Str) :
    (trimR l).dropWhile isWS = trimR (l.dropWhile isWS) := by
  induction l with
  | nil => rfl
  | cons a l ih =>
    by_cases h : isWS a = true
    · rw [List.dropWhile_cons, if_pos h]
      unfold trimR
      rw [List.reverse_cons, List.dropWhile_append]
      by_cases he : (l.reverse.dropWhile isWS).isEmpty = true
      · rw [if_pos he]
        rw [List.isEmpty_iff] at he
        simp [List.dropWhile_cons, h, he, trimR] at ih ⊢
        exact ih
      · rw [if_neg he]
        rw [List.reverse_append]
        simp only [List.reverse_cons, List.reverse_nil, List.nil_append,
          List.singleton_append, List.dropWhile_cons, if_pos h]
        unfold trimR at ih
        exact ih
    · have hf : isWS a = false := by simpa using h
      rw [trimR_cons_of_neg hf, List.dropWhile_cons, if_neg h,
        List.dropWhile_cons, if_neg h, trimR_cons_of_neg hf]

theorem trimWS_idem (l : Str) : trimWS (trimWS l) = trimWS l := by
  unfold trimWS
  rw [dropWhile_trimR_comm, dropWhile_idem, trimR_idem]

theorem dropWhile_of_all_neg {p : Char → Bool} {l : Str}
    (h : ∀ c ∈ l, p c = false) : l.dropWhile p = l := by
  cases l with
  | nil => rfl
  | cons a l => rw [List.dropWhile_cons, h a (by simp)]; simp

theorem trimWS_of_all_neg {l : Str} (h : ∀ c ∈ l, isWS c = false) :
    trimWS l = l := by
  unfold trimWS trimR
  rw [dropWhile_of_all_neg h,
    dropWhile_of_all_neg (fun c hc => h c (List.mem_reverse.mp hc)),
    List.reverse_reverse]

theorem isWS_eq_false_of_isIdChar {c : Char} (h : isIdChar c = true) :
    isWS c = false := by
  by_cases hw : isWS c = true
  · exfalso
    have hc : ((c = ' ' ∨ c = '\t') ∨ c = '\n') ∨ c = '\r' := by
      simpa [isWS] using hw
    rcases hc with ((h1 | h1) | h1) | h1 <;> subst h1 <;> exact absurd h (by decide)
  · simpa using hw

theorem ne_of_isIdChar {c d : Char} (hd : isIdChar d = false)
    (h : isIdChar c = true) : c ≠ d := by
  intro he
  subst he
  rw [h] at hd
  exact Bool.true_eq_false.mp hd

theorem isIdSeg_all {l : Str} (h : isIdSeg l = true) :
    ∀ c ∈ l, isIdChar c = true := by
  have := (by simpa [isIdSeg, Bool.and_eq_true] using h :
    l.isEmpty = false ∧ l.all isIdChar = true)
  exact fun c hc => List.all_eq_true.mp this.2 c hc

theorem isIdSeg_ne_nil {l : Str} (h : isIdSeg l = true) : l ≠ [] := by
  intro he
  subst he
  exact absurd h (by decide)

theorem contains_eq_false_of_not_mem {l : Str} {c : Char} (h : c ∉ l) :
    l.contains c = false := by
  cases he : l.contains c
  · rfl
  · exact absurd (List.elem_iff.mp he) h

theorem startsDollar_of_isIdSeg {l : Str} (h : isIdSeg l = true) :
    startsDollar l = false := by
  cases l with
  | nil => rfl
  | cons a l =>
    have ha : isIdChar a = true := isIdSeg_all h a (by simp)
    have : a ≠ '$' := ne_of_isIdChar (by decide) ha
    simp [startsDollar, this]

theorem matchDollar_sound {d m1 m2 m3 m4 : Str}
    (h : matchDollar d = some (m1, m2, m3, m4)) :
    isIdSeg (if startsDollar m1 then m1.drop 1 else m1) = true ∧
      m2 = "Unit".data ∧ isIdSeg m3 = true ∧ isIdSeg m4 = true := by
  unfold matchDollar at h
  split at h
  · split at h
    · rename_i s1 s2 s3 s4 heq hcond
      obtain ⟨⟨⟨h1, h2⟩, h3⟩, h4⟩ : ((isIdSeg s1 = true ∧ s2 = "Unit".data) ∧
          isIdSeg s3 = true) ∧ isIdSeg s4 = true := by
        simpa [Bool.and_eq_true, decide_eq_true_eq] using hcond
      simp only [Option.some.injEq, Prod.mk.injEq] at h
      obtain ⟨rfl, rfl, rfl, rfl⟩ := h
      rw [startsDollar_of_isIdSeg h1]
      exact ⟨by simpa using h1, h2, h3, h4⟩
    · exact absurd h (by simp)
  · split at h
    · rename_i s0 s1 s2 s3 s4 heq hcond
      obtain ⟨⟨⟨⟨h0, h1⟩, h2⟩, h3⟩, h4⟩ : (((s0 = [] ∧ isIdSeg s1 = true) ∧
          s2 = "Unit".data) ∧ isIdSeg s3 = true) ∧ isIdSeg s4 = true := by
        simpa [Bool.and_eq_true, decide_eq_true_eq] using hcond
      simp only [Option.some.injEq, Prod.mk.injEq] at h
      obtain ⟨rfl, rfl, rfl, rfl⟩ := h
      have hs : startsDollar ('$' :: s1) = true := by simp [startsDollar]
      rw [hs]
      exact ⟨by simpa using h1, h2, h3, h4⟩
    · exact absurd h (by simp)
  · exact absurd h (by simp)

theorem unit_seg : isIdSeg "Unit".data = true := by decide

theorem toPipeId_result_chars {s t : Str} (h : toPipeId s = some t) :
    t.contains '|' = true ∧ trimWS t = t := by
  unfold toPipeId at h
  split at h
  · rename_i hc
    simp only [Option.some.injEq] at h
    subst h
    exact ⟨hc, trimWS_idem s⟩
  · rename_i hc
    split at h
    · exact absurd h (by simp)
    · rename_i m1 m2 m3 m4 heq
      simp only [Option.some.injEq] at h
      obtain ⟨hsym, hm2, hm3, hm4⟩ := matchDollar_sound heq
      subst h
      subst hm2
      constructor
      · have : '|' ∈ (if startsDollar m1 then m1.drop 1 else m1) ++
            '|' :: "Unit".data ++ '|' :: m3 ++ '|' :: m4 := by
          simp
        exact List.elem_iff.mpr this
      · refine trimWS_of_all_neg ?_
        intro c hcmem
        simp only [List.mem_append, List.mem_cons] at hcmem
        rcases hcmem with ((hc1 | hc2) | hc3) | hc4
        · exact isWS_eq_false_of_isIdChar (isIdSeg_all hsym c hc1)
        · rcases hc2 with rfl | rfl | rfl | rfl | rfl | h0
          · decide
          · decide
          · decide
          · decide
          · decide
          · exact absurd h0 (by simp)
        · rcases hc3 with rfl | hc3
          · decide
          · exact isWS_eq_false_of_isIdChar (isIdSeg_all hm3 c hc3)
        · rcases hc4 with rfl | hc4
          · decide
          · exact isWS_eq_false_of_isIdChar (isIdSeg_all hm4 c hc4)

theorem toPipeId_idem {s t : Str} (h : toPipeId s = some t) :
    toPipeId t = some t := by
  obtain ⟨hc, htr⟩ := toPipeId_result_chars h
  unfold toPipeId
  rw [htr, hc]
  simp

theorem splitCh_append_cons {c : Char} {l1 l2 : Str} (h : ∀ x ∈ l1, x ≠ c) :
    splitCh c (l1 ++ c :: l2) = l1 :: splitCh c l2 := by
  induction l1 with
  | nil => simp [splitCh]
  | cons a l1 ih =>
    have ha : ¬(a = c) := h a (by simp)
    have hrec := ih fun x hx => h x (by simp [hx])
    rw [List.cons_append]
    rw [splitCh, if_neg ha, hrec]

theorem toPipeId_bare {sym : Str} (h : isIdSeg sym = true) :
    toPipeId sym = some (sym ++ "|Unit|none|none".data) := by
  have hall : ∀ c ∈ sym, isIdChar c = true := isIdSeg_all h
  have htr : trimWS sym = sym :=
    trimWS_of_all_neg fun c hc => isWS_eq_false_of_isIdChar (hall c hc)
  have hnp : sym.contains '|' = false := contains_eq_false_of_not_mem
    fun hm => absurd (hall _ hm) (by decide)
  have hnd : sym.contains '$' = false := contains_eq_false_of_not_mem
    fun hm => absurd (hall _ hm) (by decide)
  unfold toPipeId
  rw [htr, hnp]
  have htd : toDollar sym = sym ++ "$Unit$none$none".data := by
    unfold toDollar
    rw [hnd]
    simp
  have hsplit : splitCh '$' (sym ++ "$Unit$none$none".data)
      = [sym, "Unit".data, "none".data, "none".data] := by
    have he : ("$Unit$none$none".data : Str) = '$' :: "Unit$none$none".data := rfl
    rw [he, splitCh_append_cons fun x hx => ne_of_isIdChar (by decide) (hall x hx)]
    rfl
  have hmd : matchDollar (toDollar sym) = some (sym, "Unit".data, "none".data, "none".data) := by
    rw [htd]
    unfold matchDollar
    rw [hsplit]
    simp [h]
    decide
  rw [hmd]
  simp [startsDollar_of_isIdSeg h]

theorem toPipeId_dollarForm {sym : Str} (h : isIdSeg sym = true) :
    toPipeId (sym ++ "$Unit$none$none".data)
      = some (sym ++ "|Unit|none|none".data) := by
  have hall : ∀ c ∈ sym, isIdChar c = true := isIdSeg_all h
  have htr : trimWS (sym ++ "$Unit$none$none".data) = sym ++ "$Unit$none$none".data := by
    refine trimWS_of_all_neg fun c hc => ?_
    rcases List.mem_append.mp hc with hc1 | hc2
    · exact isWS_eq_false_of_isIdChar (hall c hc1)
    · exact (by decide : ∀ x ∈ ("$Unit$none$none".data : Str), isWS x = false) c hc2
  have hnp : (sym ++ "$Unit$none$none".data).contains '|' = false := by
    refine contains_eq_false_of_not_mem fun hm => ?_
    rcases List.mem_append.mp hm with hc1 | hc2
    · exact absurd (hall _ hc1) (by decide)
    · exact absurd hc2 (by decide)
  have hd : (sym ++ "$Unit$none$none".data).contains '$' = true :=
    List.elem_iff.mpr (List.mem_append_right _ (by decide))
  have hsplit : splitCh '$' (sym ++ "$Unit$none$none".data)
      = [sym, "Unit".data, "none".data, "none".data] := by
    have he : ("$Unit$none$none".data : Str) = '$' :: "Unit$none$none".data := rfl
    rw [he, splitCh_append_cons fun x hx => ne_of_isIdChar (by decide) (hall x hx)]
    rfl
  unfold toPipeId
  rw [htr, hnp]
  have htd : toDollar (sym ++ "$Unit$none$none".data) = sym ++ "$Unit$none$none".data := by
    unfold toDollar
    rw [hd]
    simp
  have hmd : matchDollar (toDollar (sym ++ "$Unit$none$none".data))
      = some (sym, "Unit".data, "none".data, "none".data) := by
    rw [htd]
    unfold matchDollar
    rw [hsplit]
    simp [h]
    decide
  rw [hmd]
  simp [startsDollar_of_isIdSeg h]

theorem toPipeId_pipeForm {sym : Str} (h : isIdSeg sym = true) :
    toPipeId (sym ++ "|Unit|none|none".data)
      = some (sym ++ "|Unit|none|none".data) := by
  have hall : ∀ c ∈ sym, isIdChar c = true := isIdSeg_all h
  have htr : trimWS (sym ++ "|Unit|none|none".data) = sym ++ "|Unit|none|none".data := by
    refine trimWS_of_all_neg fun c hc => ?_
    rcases List.mem_append.mp hc with hc1 | hc2
    · exact isWS_eq_false_of_isIdChar (hall c hc1)
    · exact (by decide : ∀ x ∈ ("|Unit|none|none".data : Str), isWS x = false) c hc2
  have hp : (sym ++ "|Unit|none|none".data).contains '|' = true :=
    List.elem_iff.mpr (List.mem_append_right _ (by decide))
  unfold toPipeId
  rw [htr, hp]
  simp

theorem bnRound_of_nonneg {y : ℚ} {n : ℤ} (h0 : 0 ≤ y)
    (h1 : (n : ℚ) ≤ y + 1 / 2) (h2 : y + 1 / 2 < n + 1) : bnRound y = n := by
  unfold bnRound
  rw [if_pos h0]
  exact Int.floor_eq_iff.mpr ⟨h1, h2⟩

theorem bnRound_of_neg {y : ℚ} {n : ℤ} (h0 : ¬0 ≤ y)
    (h1 : (n : ℚ) ≤ -y + 1 / 2) (h2 : -y + 1 / 2 < n + 1) : bnRound y = -n := by
  unfold bnRound
  rw [if_neg h0, Int.floor_eq_iff.mpr ⟨h1, h2⟩]

theorem profitCalc_100_101 : profitCalc 100 101 = 100 := by
  have h : bnRound (((101 : ℚ) - 100) / 100 * 10 ^ 20) = 10 ^ 18 := by
    apply bnRound_of_nonneg <;> norm_num
  unfold profitCalc bnDiv
  rw [h]
  norm_num

theorem profitCalc_100_0 : profitCalc 100 0 = -10000 := by
  have h : bnRound (((0 : ℚ) - 100) / 100 * 10 ^ 20) = -10 ^ 20 := by
    apply bnRound_of_neg <;> norm_num
  unfold profitCalc bnDiv
  rw [h]
  norm_num

theorem profitCalc_3_4 : profitCalc 3 4 = 33333333333333333333 / 10 ^ 16 := by
  have h : bnRound (((4 : ℚ) - 3) / 3 * 10 ^ 20) = 33333333333333333333 := by
    apply bnRound_of_nonneg <;> norm_num
  unfold profitCalc bnDiv
  rw [h]
  norm_num

theorem runCand_balanced {q : Nat → ℚ → Option ℚ} {probe : ℚ} {st : Progress}
    {c : Cand} (h : st.quotesRequested = st.quotesOk + st.quotesErr) :
    (runCand q probe st c).1.quotesRequested =
      (runCand q probe st c).1.quotesOk + (runCand q probe st c).1.quotesErr := by
  cases c with
  | two A B f1 f2 =>
    rcases h1 : q st.quotesRequested probe with _ | a1
    · simp [runCand, doQuote, h1, bumpErr]
      omega
    · by_cases hz : a1 = 0
      · simp [runCand, doQuote, h1, hz, bumpErr]
        omega
      · rcases h2 : q (st.quotesRequested + 1) a1 with _ | a2
        · simp [runCand, doQuote, h1, hz, h2, bumpErr]
          omega
        · simp [runCand, doQuote, h1, hz, h2, bumpErr]
          omega
  | three A B C f1 f2 f3 =>
    rcases h1 : q st.quotesRequested probe with _ | a1
    · simp [runCand, doQuote, h1, bumpErr]
      omega
    · by_cases hz : a1 = 0
      · simp [runCand, doQuote, h1, hz, bumpErr]
        omega
      · rcases h2 : q (st.quotesRequested + 1) a1 with _ | a2
        · simp [runCand, doQuote, h1, hz, h2, bumpErr]
          omega
        · by_cases hz2 : a2 = 0
          · simp [runCand, doQuote, h1, hz, h2, hz2, bumpErr]
            omega
          · rcases h3 : q (st.quotesRequested + 1 + 1) a2 with _ | a3
            · simp [runCand, doQuote, h1, hz, h2, hz2, h3, bumpErr]
              omega
            · simp [runCand, doQuote, h1, hz, h2, hz2, h3, bumpErr]
              omega

theorem runAll_balanced (q : Nat → ℚ → Option ℚ) (probe : ℚ)
    (cs : List Cand) (st : Progress)
    (h : st.quotesRequested = st.quotesOk + st.quotesErr) :
    (runAll q probe cs st).1.quotesRequested =
      (runAll q probe cs st).1.quotesOk + (runAll q probe cs st).1.quotesErr := by
  induction cs generalizing st with
  | nil => exact h
  | cons c cs ih => exact ih _ (runCand_balanced h)

theorem runCand_some_two {q : Nat → ℚ → Option ℚ} {probe : ℚ} {st : Progress}
    {A B : Str} {f1 f2 : Nat} {o : Opportunity}
    (h : (runCand q probe st (Cand.two A B f1 f2)).2 = some o) :
    ∃ a1 a2, q st.quotesRequested probe = some a1 ∧ ¬a1 = 0 ∧
      q (st.quotesRequested + 1) a1 = some a2 ∧
      o = ⟨2, [A, B, A], [f1, f2], path2 A B, profitCalc probe a2⟩ := by
  rcases h1 : q st.quotesRequested probe with _ | a1
  · simp [runCand, doQuote, h1, bumpErr] at h
  · by_cases hz : a1 = 0
    · simp [runCand, doQuote, h1, hz] at h
    · rcases h2 : q (st.quotesRequested + 1) a1 with _ | a2
      · simp [runCand, doQuote, h1, hz, h2, bumpErr] at h
      · refine ⟨a1, a2, rfl, hz, h2, ?_⟩
        have he : (runCand q probe st (Cand.two A B f1 f2)).2
            = some ⟨2, [A, B, A], [f1, f2], path2 A B, profitCalc probe a2⟩ := by
          simp [runCand, doQuote, h1, hz, h2]
        rw [he] at h
        injection h with h
        exact h.symm

theorem runCand_some_three {q : Nat → ℚ → Option ℚ} {probe : ℚ} {st : Progress}
    {A B C : Str} {f1 f2 f3 : Nat} {o : Opportunity}
    (h : (runCand q probe st (Cand.three A B C f1 f2 f3)).2 = some o) :
    ∃ a1 a2 a3, q st.quotesRequested probe = some a1 ∧ ¬a1 = 0 ∧
      q (st.quotesRequested + 1) a1 = some a2 ∧ ¬a2 = 0 ∧
      q (st.quotesRequested + 1 + 1) a2 = some a3 ∧
      o = ⟨3, [A, B, C, A], [f1, f2, f3], path3 A B C, profitCalc probe a3⟩ := by
  rcases h1 : q st.quotesRequested probe with _ | a1
  · simp [runCand, doQuote, h1, bumpErr] at h
  · by_cases hz : a1 = 0
    · simp [runCand, doQuote, h1, hz] at h
    · rcases h2 : q (st.quotesRequested + 1) a1 with _ | a2
      · simp [runCand, doQuote, h1, hz, h2, bumpErr] at h
      · by_cases hz2 : a2 = 0
        · simp [runCand, doQuote, h1, hz, h2, hz2] at h
        · rcases h3 : q (st.quotesRequested + 1 + 1) a2 with _ | a3
          · simp [runCand, doQuote, h1, hz, h2, hz2, h3, bumpErr] at h
          · refine ⟨a1, a2, a3, rfl, hz, h2, hz2, h3, ?_⟩
            have he : (runCand q probe st (Cand.three A B C f1 f2 f3)).2
                = some ⟨3, [A, B, C, A], [f1, f2, f3], path3 A B C,
                    profitCalc probe a3⟩ := by
              simp [runCand, doQuote, h1, hz, h2, hz2, h3]
            rw [he] at h
            injection h with h
            exact h.symm

theorem runCand_some_elim {q : Nat → ℚ → Option ℚ} {probe : ℚ}
    (P : Opportunity → Prop)
    (h2 : ∀ A B f1 f2 a2, P ⟨2, [A, B, A], [f1, f2], path2 A B, profitCalc probe a2⟩)
    (h3 : ∀ A B C f1 f2 f3 a3,
      P ⟨3, [A, B, C, A], [f1, f2, f3], path3 A B C, profitCalc probe a3⟩) :
    ∀ st c o, (runCand q probe st c).2 = some o → P o := by
  intro st c o h
  cases c with
  | two A B f1 f2 =>
    obtain ⟨a1, a2, -, -, -, rfl⟩ := runCand_some_two h
    exact h2 A B f1 f2 a2
  | three A B C f1 f2 f3 =>
    obtain ⟨a1, a2, a3, -, -, -, -, -, rfl⟩ := runCand_some_three h
    exact h3 A B C f1 f2 f3 a3

theorem runAll_mem {q : Nat → ℚ → Option ℚ} {probe : ℚ}
    (P : Opportunity → Prop)
    (hc : ∀ st c o, (runCand q probe st c).2 = some o → P o) :
    ∀ cs st o, o ∈ (runAll q probe cs st).2 → P o := by
  intro cs
  induction cs with
  | nil =>
    intro st o ho
    simp [runAll] at ho
  | cons c cs ih =>
    intro st o ho
    simp only [runAll] at ho
    rcases List.mem_append.mp ho with h1 | h1
    · rcases ho2 : (runCand q probe st c).2 with _ | o2
      · rw [ho2] at h1
        simp at h1
      · rw [ho2] at h1
        simp at h1
        subst h1
        exact hc _ _ _ ho2
    · exact ih _ _ h1

theorem scanOnce_inv {q : Nat → ℚ → Option ℚ} {cfg : ScanCfg} {st : Progress}
    {opps : List Opportunity} (h : scanOnce q cfg = some (st, opps)) :
    ∃ bases toks, mapToPipe cfg.baseSymbols = some bases ∧
      mapToPipe cfg.tokens = some toks ∧
      runAll q cfg.probeAmount
        (candsAll bases (dedupFirst toks) cfg.feeTiers cfg.maxHops)
        Progress.init = (st, opps) := by
  unfold scanOnce at h
  split at h
  · rename_i bases toks hb ht
    injection h with h
    exact ⟨bases, toks, hb, ht, h⟩
  · exact absurd h (by simp)

-- ranker lemmas
theorem mem_insertDesc {o x : Opportunity} {l : List Opportunity} :
    x ∈ insertDesc o l ↔ x = o ∨ x ∈ l := by
  induction l with
  | nil => simp [insertDesc]
  | cons a l ih =>
    unfold insertDesc
    by_cases h : a.profitBps ≤ o.profitBps
    · simp [h]
    · simp [h, ih]
      tauto

theorem mem_sortDesc {x : Opportunity} {l : List Opportunity} :
    x ∈ sortDesc l ↔ x ∈ l := by
  induction l with
  | nil => simp [sortDesc]
  | cons a l ih => simp [sortDesc, mem_insertDesc, ih]

theorem pairwise_insertDesc {o : Opportunity} {l : List Opportunity}
    (h : List.Pairwise (fun a b => b.profitBps ≤ a.profitBps) l) :
    List.Pairwise (fun a b => b.profitBps ≤ a.profitBps) (insertDesc o l) := by
  induction l with
  | nil => simp [insertDesc]
  | cons a l ih =>
    rcases List.pairwise_cons.mp h with ⟨ha, hl⟩
    unfold insertDesc
    by_cases hcmp : a.profitBps ≤ o.profitBps
    · rw [if_pos (by simpa using hcmp)]
      refine List.pairwise_cons.mpr ⟨?_, h⟩
      intro b hb
      rcases List.mem_cons.mp hb with rfl | hb
      · exact hcmp
      · exact le_trans (ha b hb) hcmp
    · rw [if_neg (by simpa using hcmp)]
      refine List.pairwise_cons.mpr ⟨?_, ih hl⟩
      intro b hb
      rcases mem_insertDesc.mp hb with rfl | hb
      · exact le_of_not_le hcmp
      · exact ha b hb

theorem pairwise_sortDesc (l : List Opportunity) :
    List.Pairwise (fun a b => b.profitBps ≤ a.profitBps) (sortDesc l) := by
  induction l with
  | nil => simp [sortDesc]
  | cons a l ih => exact pairwise_insertDesc ih

-- executor lemmas
theorem lookupPath_setPath (m : List (Str × Int)) (ph : Str) (t : Int) :
    lookupPath (setPath m ph t) ph = some t := by
  simp [setPath, lookupPath]

theorem tryExecute_true_inv {cfg : ExecCfg} {st st1 : ExecState}
    {now now2 : Int} {q : Nat → ℚ → Option ℚ} {sw : Nat → Bool}
    {opp : Opportunity} {k : Nat}
    (h : tryExecute cfg st now now2 q sw opp = ⟨true, st1, k⟩) :
    cfg.enabled ≠ false ∧
      st1 = ⟨now2, setPath st.recentPaths (pathHash opp.tokens opp.fees) now2⟩ := by
  unfold tryExecute at h
  split at h
  · exact absurd (congrArg ExecOutcome.ok h) (by simp)
  · split at h
    · exact absurd (congrArg ExecOutcome.ok h) (by simp)
    · split at h
      · exact absurd (congrArg ExecOutcome.ok h) (by simp)
      · split at h
        · exact absurd (congrArg ExecOutcome.ok h) (by simp)
        · rename_i h1 h2 h3 h4
          split at h
          · rename_i o k2 a heq
            injection h with hok hst hk
            exact ⟨h1, hst.symm⟩
          · exact absurd (congrArg ExecOutcome.ok h) (by simp)


/-! ## The claims -/

/-- Claim C1: for every opportunity and any behaviour of the quoting and
swap collaborators (both may throw at any hop), `tryExecute` never
propagates an exception: it is a total boolean-returning function by
construction, and whenever the hop loop aborts (a quote or swap failure),
the call returns `false` with the guard state unchanged. -/
theorem exec_never_throws :
    ∀ (cfg : ExecCfg) (st : ExecState) (now now2 : Int)
      (q : Nat → ℚ → Option ℚ) (sw : Nat → Bool) (opp : Opportunity),
      (execHops opp.tokens q sw 0 opp.hops cfg.tradeUsd).1 = none →
      (tryExecute cfg st now now2 q sw opp).ok = false ∧
        (tryExecute cfg st now now2 q sw opp).st = st := by
  intro cfg st now now2 q sw opp h
  unfold tryExecute
  by_cases h1 : cfg.enabled = false
  · simp [h1]
  · by_cases h2 : cfg.maxHopsExec < opp.hops
    · simp [h1, h2]
    · by_cases h3 : now - st.lastExecAt < cfg.cooldownMs
      · simp [h1, h2, h3]
      · by_cases h4 : dedupeHit st now cfg.dedupeWindowMs
            (pathHash opp.tokens opp.fees) = true
        · simp [h1, h2, h3, h4]
        · rcases he : execHops opp.tokens q sw 0 opp.hops cfg.tradeUsd with ⟨o, k⟩
          rw [he] at h
          dsimp at h
          subst h
          simp [h1, h2, h3, h4, he]

/-- Witness for C1: with an always-throwing quote oracle the call returns
`false` and leaves the state untouched. -/
theorem exec_never_throws_witness :
    (tryExecute cfgExec ExecState.init 100 110 qThrow swOk oppSmall).ok = false ∧
      (tryExecute cfgExec ExecState.init 100 110 qThrow swOk oppSmall).st
        = ExecState.init :=
  exec_never_throws cfgExec ExecState.init 100 110 qThrow swOk oppSmall rfl

/-- Claim C9: after a successful `tryExecute` at entry time `now1`
(recording timestamp `now2`), a second call for an opportunity with the
same path signature (identical token and fee sequences) strictly within
`dedupeWindowMs` of `now2` returns `false` without invoking the swap
collaborator; once the window has elapsed (and the cooldown permits, the
hop bound holds and the hop loop succeeds) the same path signature
executes again. -/
theorem dedupe_guard :
    ∀ (cfg : ExecCfg) (st st1 : ExecState) (now1 now2 now3 now4 : Int)
      (q1 q2 : Nat → ℚ → Option ℚ) (sw1 sw2 : Nat → Bool)
      (opp opp2 : Opportunity) (k : Nat),
      tryExecute cfg st now1 now2 q1 sw1 opp = ⟨true, st1, k⟩ →
      opp2.tokens = opp.tokens → opp2.fees = opp.fees → 0 < now2 →
      ((now3 - now2 < cfg.dedupeWindowMs →
          (tryExecute cfg st1 now3 now4 q2 sw2 opp2).ok = false ∧
            (tryExecute cfg st1 now3 now4 q2 sw2 opp2).swaps = 0) ∧
        (cfg.dedupeWindowMs ≤ now3 - now2 → cfg.cooldownMs ≤ now3 - now2 →
          opp2.hops ≤ cfg.maxHopsExec →
          (execHops opp2.tokens q2 sw2 0 opp2.hops cfg.tradeUsd).1 ≠ none →
          (tryExecute cfg st1 now3 now4 q2 sw2 opp2).ok = true)) := by
  intro cfg st st1 now1 now2 now3 now4 q1 q2 sw1 sw2 opp opp2 k h hts hfs hpos
  obtain ⟨hen, hst1⟩ := tryExecute_true_inv h
  have hph : pathHash opp2.tokens opp2.fees = pathHash opp.tokens opp.fees := by
    rw [hts, hfs]
  have hlook : lookupPath st1.recentPaths (pathHash opp2.tokens opp2.fees)
      = some now2 := by
    rw [hst1, hph]
    exact lookupPath_setPath _ _ _
  have hlast : st1.lastExecAt = now2 := by rw [hst1]
  constructor
  · intro hwin
    unfold tryExecute
    by_cases h1 : cfg.enabled = false
    · simp [h1]
    · by_cases h2 : cfg.maxHopsExec < opp2.hops
      · simp [h1, h2]
      · by_cases h3 : now3 - st1.lastExecAt < cfg.cooldownMs
        · simp [h1, h2, h3]
        · have h4 : dedupeHit st1 now3 cfg.dedupeWindowMs
              (pathHash opp2.tokens opp2.fees) = true := by
            unfold dedupeHit
            rw [hlook]
            simp [hwin]
            omega
          simp [h1, h2, h3, h4]
  · intro hge hcd hhops hexec
    unfold tryExecute
    have h2 : ¬cfg.maxHopsExec < opp2.hops := not_lt.mpr hhops
    have h3 : ¬now3 - st1.lastExecAt < cfg.cooldownMs := by
      rw [hlast]
      omega
    have h4 : dedupeHit st1 now3 cfg.dedupeWindowMs
        (pathHash opp2.tokens opp2.fees) = false := by
      unfold dedupeHit
      rw [hlook]
      simp
      intro _
      omega
    rcases he : execHops opp2.tokens q2 sw2 0 opp2.hops cfg.tradeUsd with ⟨o, k2⟩
    rw [he] at hexec
    cases o with
    | none => exact absurd rfl hexec
    | some out => simp [hen, h2, h3, h4, he]

/-- Witness for C9: around an execution recorded at time 110 with a 600 ms
dedupe window, a repeat at time 120 is inside the window (the rejection
conjunct applies with a true antecedent) and a repeat at time 900 is past
it (the eligibility conjunct applies with true antecedents). -/
theorem dedupe_guard_witness :
    ((120 - 110 < cfgExec.dedupeWindowMs →
        (tryExecute cfgExec stAfter 120 125 qOne swOk oppSmall).ok = false ∧
          (tryExecute cfgExec stAfter 120 125 qOne swOk oppSmall).swaps = 0) ∧
      (cfgExec.dedupeWindowMs ≤ 120 - 110 → cfgExec.cooldownMs ≤ 120 - 110 →
        oppSmall.hops ≤ cfgExec.maxHopsExec →
        (execHops oppSmall.tokens qOne swOk 0 oppSmall.hops cfgExec.tradeUsd).1 ≠ none →
        (tryExecute cfgExec stAfter 120 125 qOne swOk oppSmall).ok = true)) ∧
    ((900 - 110 < cfgExec.dedupeWindowMs →
        (tryExecute cfgExec stAfter 900 910 qOne swOk oppSmall).ok = false ∧
          (tryExecute cfgExec stAfter 900 910 qOne swOk oppSmall).swaps = 0) ∧
      (cfgExec.dedupeWindowMs ≤ 900 - 110 → cfgExec.cooldownMs ≤ 900 - 110 →
        oppSmall.hops ≤ cfgExec.maxHopsExec →
        (execHops oppSmall.tokens qOne swOk 0 oppSmall.hops cfgExec.tradeUsd).1 ≠ none →
        (tryExecute cfgExec stAfter 900 910 qOne swOk oppSmall).ok = true)) :=
  ⟨dedupe_guard cfgExec ExecState.init stAfter 100 110 120 125 qOne qOne swOk swOk
      oppSmall oppSmall 2 rfl rfl rfl (by decide),
    dedupe_guard cfgExec ExecState.init stAfter 100 110 900 910 qOne qOne swOk swOk
      oppSmall oppSmall 2 rfl rfl rfl (by decide)⟩




/-- Counterexample for C2 as stated: in a scan whose final hop quotes
exactly zero, the candidate cycle is NOT discarded — an opportunity with
`profitBps = profitCalc 100 0 = -10000` still appears in the returned
list. -/
theorem scan_zero_final_hop_counterexample :
    scanOnce qZeroFinal cfgSmall =
      some (progTwo,
        [⟨2, [gusdcP, galaP, gusdcP], [500, 500], "GUSDC->GALA->GUSDC".data,
          profitCalc 100 0⟩]) ∧
      qZeroFinal 1 1000 = some 0 ∧ profitCalc 100 0 = -10000 :=
  ⟨rfl, rfl, profitCalc_100_0⟩

/-- Claim C2 (amended): a quoted output of exactly zero on any NON-final
hop of a candidate discards that candidate — the 2-hop first hop, the
3-hop first hop, and the 3-hop second hop; the final hop back to the base
token carries no such check (see the counterexample). -/
theorem scan_zero_intermediate_discards :
    ∀ (q : Nat → ℚ → Option ℚ) (probe : ℚ) (st : Progress) (A B C : Str)
      (f1 f2 f3 : Nat),
      (q st.quotesRequested probe = some 0 →
        (runCand q probe st (Cand.two A B f1 f2)).2 = none) ∧
      (q st.quotesRequested probe = some 0 →
        (runCand q probe st (Cand.three A B C f1 f2 f3)).2 = none) ∧
      (∀ a1, q st.quotesRequested probe = some a1 → ¬a1 = 0 →
        q (st.quotesRequested + 1) a1 = some 0 →
        (runCand q probe st (Cand.three A B C f1 f2 f3)).2 = none) := by
  intro q probe st A B C f1 f2 f3
  refine ⟨fun h1 => ?_, fun h1 => ?_, fun a1 h1 hz h2 => ?_⟩
  · simp [runCand, doQuote, h1]
  · simp [runCand, doQuote, h1]
  · simp [runCand, doQuote, h1, hz, h2]

/-- Witness for the amended C2: a zero quote on the first hop yields no
opportunity for the candidate. -/
theorem scan_zero_intermediate_discards_witness :
    (runCand qZero 100 Progress.init (Cand.two "A".data "B".data 500 500)).2
      = none :=
  (scan_zero_intermediate_discards qZero 100 Progress.init "A".data "B".data
    "C".data 500 500 500).1 rfl

/-- Claim C3 (code bug): a plain bare symbol normalizes as claimed
(`"GALA"` to `"GALA|Unit|none|none"`), but a marker-prefixed bare symbol
(`"$GMUSIC"`) throws the invalid-identifier error, contrary to the claim
and to the function's own header comment — the `startsWith('$')` branch of
`toDollar` is unreachable because any string starting with `'$'` already
matches the contains-a-dollar test. -/
theorem normalize_marker_bare_bug :
    toPipeId "GALA".data = some "GALA|Unit|none|none".data ∧
      toPipeId "$GMUSIC".data = none :=
  ⟨by decide, by decide⟩

/-- Counterexample for C4 as stated: the input `"a|b"`, which is not a
well-formed four-part identifier, is returned unchanged rather than
rejected — any input containing a pipe character bypasses validation. -/
theorem normalize_pipe_unvalidated_counterexample :
    toPipeId "a|b".data = some "a|b".data := by decide

/-- Claim C4 (amended): `toPipeId` fails exactly when the trimmed input
contains no pipe character AND its dollar-expansion does not match the
canonical four-part dollar pattern; pipe-containing inputs are returned
(trimmed) without any validation. -/
theorem normalize_failure_iff :
    ∀ l : Str, toPipeId l = none ↔
      ((trimWS l).contains '|' = false ∧
        matchDollar (toDollar (trimWS l)) = none) := by
  intro l
  unfold toPipeId
  split
  · rename_i hc
    constructor
    · intro hsome
      exact absurd hsome (by simp)
    · rintro ⟨h1, -⟩
      rw [hc] at h1
      exact absurd h1 (by simp)
  · rename_i hc
    have hcf : (trimWS l).contains '|' = false := by
      cases hcc : (trimWS l).contains '|'
      · rfl
      · exact absurd hcc hc
    split
    · rename_i hm
      exact ⟨fun _ => ⟨hcf, hm⟩, fun _ => rfl⟩
    · rename_i m1 m2 m3 m4 hm
      constructor
      · intro hsome
        exact absurd hsome (by simp)
      · rintro ⟨-, h2⟩
        rw [hm] at h2
        exact absurd h2 (by simp)

/-- Claim C5: normalization is idempotent — re-normalizing any successful
result returns it unchanged — and for every well-formed symbol the three
canonical-equivalent spellings (bare symbol, dollar form, pipe form) all
normalize to the identical pipe identifier. -/
theorem normalize_idempotent_and_equiv :
    (∀ s t : Str, toPipeId s = some t → toPipeId t = some t) ∧
      (∀ sym : Str, isIdSeg sym = true →
        toPipeId sym = some (sym ++ "|Unit|none|none".data) ∧
        toPipeId (sym ++ "$Unit$none$none".data)
          = some (sym ++ "|Unit|none|none".data) ∧
        toPipeId (sym ++ "|Unit|none|none".data)
          = some (sym ++ "|Unit|none|none".data)) :=
  ⟨fun _ _ h => toPipeId_idem h,
    fun _ h => ⟨toPipeId_bare h, toPipeId_dollarForm h, toPipeId_pipeForm h⟩⟩

/-- Witness for C5 at the symbol `GALA`. -/
theorem normalize_idempotent_and_equiv_witness :
    toPipeId "GALA|Unit|none|none".data = some "GALA|Unit|none|none".data ∧
      (toPipeId "GALA".data = some ("GALA".data ++ "|Unit|none|none".data) ∧
        toPipeId ("GALA".data ++ "$Unit$none$none".data)
          = some ("GALA".data ++ "|Unit|none|none".data) ∧
        toPipeId ("GALA".data ++ "|Unit|none|none".data)
          = some ("GALA".data ++ "|Unit|none|none".data)) :=
  ⟨normalize_idempotent_and_equiv.1 "GALA".data "GALA|Unit|none|none".data
      (by decide),
    normalize_idempotent_and_equiv.2 "GALA".data (by decide)⟩

/-- Counterexample for C6 as stated: the profit metric does NOT equal
`(out - in) / in * 10000` exactly in general — BigNumber's division rounds
to 20 decimal places.  In a scan with probe 3 whose cycle ends with a
quoted output of 4, the pushed opportunity's `profitBps` is the rounded
`33333333333333333333 / 10 ^ 16`, not the exact `10000 / 3` (and the
program's subsequent float64 conversion rounds it once more). -/
theorem profit_exactness_counterexample :
    scanOnce qThird cfgProbe3 =
      some (progTwo,
        [⟨2, [gusdcP, galaP, gusdcP], [500, 500], "GUSDC->GALA->GUSDC".data,
          profitCalc 3 4⟩]) ∧
      qThird 1 1000 = some 4 ∧
      profitCalc 3 4 ≠ (4 - 3) / 3 * 10000 ∧
      profitCalc 3 4 = 33333333333333333333 / 10 ^ 16 := by
  refine ⟨rfl, rfl, ?_, profitCalc_3_4⟩
  rw [profitCalc_3_4]
  norm_num

/-- Claim C6 (amended): every opportunity produced by a completed scan
carries `profitBps = bnDiv (out - probe) probe * 10000` exactly, where
`out` is the quoted output of the cycle's final hop — witnessed by the
full chain of oracle responses, each hop's output feeding the next hop's
exact input starting from the probe — and `bnDiv` is the quotient rounded
to BigNumber's default 20 decimal places; the original formula holds
exactly whenever the quotient is representable in 20 decimal places, in
particular `profitCalc 100 101 = 100`. -/
theorem profit_formula :
    ∀ (q : Nat → ℚ → Option ℚ) (cfg : ScanCfg) (st : Progress)
      (opps : List Opportunity),
      scanOnce q cfg = some (st, opps) →
      (∀ o ∈ opps, ∃ i,
        (o.hops = 2 ∧ ∃ a1 out, q i cfg.probeAmount = some a1 ∧ ¬a1 = 0 ∧
          q (i + 1) a1 = some out ∧
          o.profitBps = bnDiv (out - cfg.probeAmount) cfg.probeAmount * 10000) ∨
        (o.hops = 3 ∧ ∃ a1 a2 out, q i cfg.probeAmount = some a1 ∧ ¬a1 = 0 ∧
          q (i + 1) a1 = some a2 ∧ ¬a2 = 0 ∧ q (i + 1 + 1) a2 = some out ∧
          o.profitBps = bnDiv (out - cfg.probeAmount) cfg.probeAmount * 10000)) ∧
      profitCalc 100 101 = 100 := by
  intro q cfg st opps h
  constructor
  · obtain ⟨bases, toks, -, -, hrun⟩ := scanOnce_inv h
    intro o ho
    have hmem : o ∈ (runAll q cfg.probeAmount
        (candsAll bases (dedupFirst toks) cfg.feeTiers cfg.maxHops)
        Progress.init).2 := by
      rw [hrun]
      exact ho
    refine runAll_mem (fun o => ∃ i,
      (o.hops = 2 ∧ ∃ a1 out, q i cfg.probeAmount = some a1 ∧ ¬a1 = 0 ∧
        q (i + 1) a1 = some out ∧
        o.profitBps = bnDiv (out - cfg.probeAmount) cfg.probeAmount * 10000) ∨
      (o.hops = 3 ∧ ∃ a1 a2 out, q i cfg.probeAmount = some a1 ∧ ¬a1 = 0 ∧
        q (i + 1) a1 = some a2 ∧ ¬a2 = 0 ∧ q (i + 1 + 1) a2 = some out ∧
        o.profitBps = bnDiv (out - cfg.probeAmount) cfg.probeAmount * 10000))
      ?_ _ _ _ hmem
    intro stc c o2 hro
    cases c with
    | two A B f1 f2 =>
      obtain ⟨a1, a2, h1, hz, h2, rfl⟩ := runCand_some_two hro
      exact ⟨stc.quotesRequested, Or.inl ⟨rfl, a1, a2, h1, hz, h2, rfl⟩⟩
    | three A B C f1 f2 f3 =>
      obtain ⟨a1, a2, a3, h1, hz1, h2, hz2, h3, rfl⟩ := runCand_some_three hro
      exact ⟨stc.quotesRequested,
        Or.inr ⟨rfl, a1, a2, a3, h1, hz1, h2, hz2, h3, rfl⟩⟩
  · exact profitCalc_100_101

/-- Witness for the amended C6: the probe-100 / output-101 scan yields an
opportunity whose profit satisfies the rounded formula over its quoted
chain, and the formula gives exactly 100 bps there. -/
theorem profit_formula_witness :
    (∀ o ∈ [oppProfit], ∃ i,
      (o.hops = 2 ∧ ∃ a1 out, qProfit i cfgSmall.probeAmount = some a1 ∧
        ¬a1 = 0 ∧ qProfit (i + 1) a1 = some out ∧
        o.profitBps
          = bnDiv (out - cfgSmall.probeAmount) cfgSmall.probeAmount * 10000) ∨
      (o.hops = 3 ∧ ∃ a1 a2 out, qProfit i cfgSmall.probeAmount = some a1 ∧
        ¬a1 = 0 ∧ qProfit (i + 1) a1 = some a2 ∧ ¬a2 = 0 ∧
        qProfit (i + 1 + 1) a2 = some out ∧
        o.profitBps
          = bnDiv (out - cfgSmall.probeAmount) cfgSmall.probeAmount * 10000)) ∧
      profitCalc 100 101 = 100 :=
  profit_formula qProfit cfgSmall progTwo [oppProfit] rfl

/-- Claim C7: every opportunity returned by `scanOnce` satisfies the
cycle-shape invariant — with hop count `h`, its token sequence has length
`h + 1`, its fee sequence has length `h`, and the first token equals the
`h`-th token. -/
theorem cycle_shape_invariant :
    ∀ (q : Nat → ℚ → Option ℚ) (cfg : ScanCfg) (st : Progress)
      (opps : List Opportunity),
      scanOnce q cfg = some (st, opps) →
      ∀ o ∈ opps, o.tokens.length = o.hops + 1 ∧ o.fees.length = o.hops ∧
        o.tokens.head? = o.tokens.get? o.hops := by
  intro q cfg st opps h o ho
  obtain ⟨bases, toks, -, -, hrun⟩ := scanOnce_inv h
  have hmem : o ∈ (runAll q cfg.probeAmount
      (candsAll bases (dedupFirst toks) cfg.feeTiers cfg.maxHops)
      Progress.init).2 := by
    rw [hrun]
    exact ho
  refine runAll_mem (fun o => o.tokens.length = o.hops + 1 ∧
    o.fees.length = o.hops ∧ o.tokens.head? = o.tokens.get? o.hops)
    (runCand_some_elim _ ?_ ?_) _ _ _ hmem
  · intro A B f1 f2 a2
    exact ⟨rfl, rfl, rfl⟩
  · intro A B C f1 f2 f3 a3
    exact ⟨rfl, rfl, rfl⟩

/-- Witness for C7 on a concrete scanned opportunity. -/
theorem cycle_shape_invariant_witness :
    oppGood.tokens.length = oppGood.hops + 1 ∧
      oppGood.fees.length = oppGood.hops ∧
      oppGood.tokens.head? = oppGood.tokens.get? oppGood.hops :=
  cycle_shape_invariant qGood cfgSmall progTwo [oppGood] rfl oppGood
    (List.mem_singleton.mpr rfl)

/-- Claim C8: the ranking step never returns an opportunity whose
`profitBps` is strictly below the threshold, its output is sorted
non-increasing by `profitBps`, and it returns the empty list (not an
error) when no opportunity qualifies. -/
theorem rank_spec :
    ∀ (opps : List Opportunity) (minBps : ℚ),
      (∀ o ∈ rank opps minBps, minBps ≤ o.profitBps) ∧
      List.Pairwise (fun a b => b.profitBps ≤ a.profitBps) (rank opps minBps) ∧
      ((∀ o ∈ opps, o.profitBps < minBps) → rank opps minBps = []) := by
  intro opps minBps
  refine ⟨?_, ?_, ?_⟩
  · intro o ho
    have : o ∈ opps.filter fun o => decide (minBps ≤ o.profitBps) :=
      mem_sortDesc.mp ho
    have := List.of_mem_filter this
    simpa using this
  · exact pairwise_sortDesc _
  · intro hall
    have hfil : (opps.filter fun o => decide (minBps ≤ o.profitBps)) = [] := by
      rw [List.filter_eq_nil_iff]
      intro o ho
      simp
      exact hall o ho
    unfold rank
    rw [hfil]
    rfl

/-- Witness for C8: a single below-threshold opportunity is filtered to
the empty list. -/
theorem rank_spec_witness :
    (∀ o ∈ rank [oppNeg] 0, (0 : ℚ) ≤ o.profitBps) ∧
      List.Pairwise (fun a b => b.profitBps ≤ a.profitBps) (rank [oppNeg] 0) ∧
      rank [oppNeg] 0 = [] :=
  ⟨(rank_spec [oppNeg] 0).1, (rank_spec [oppNeg] 0).2.1,
    (rank_spec [oppNeg] 0).2.2 (by
      intro o ho
      rw [List.mem_singleton.mp ho]
      decide)⟩

/-- Claim C10: after every completed `scanOnce`, the progress counters
satisfy `quotesRequested = quotesOk + quotesErr` — every quote call is
counted exactly once as requested and exactly once as either a success or
an error. -/
theorem counters_balance :
    ∀ (q : Nat → ℚ → Option ℚ) (cfg : ScanCfg) (st : Progress)
      (opps : List Opportunity),
      scanOnce q cfg = some (st, opps) →
      st.quotesRequested = st.quotesOk + st.quotesErr := by
  intro q cfg st opps h
  obtain ⟨bases, toks, -, -, hrun⟩ := scanOnce_inv h
  have hb := runAll_balanced q cfg.probeAmount
    (candsAll bases (dedupFirst toks) cfg.feeTiers cfg.maxHops)
    Progress.init rfl
  rw [hrun] at hb
  exact hb

/-- Witness for C10 on the happy-path scan. -/
theorem counters_balance_witness :
    progTwo.quotesRequested = progTwo.quotesOk + progTwo.quotesErr :=
  counters_balance qGood cfgSmall progTwo [oppGood] rfl


end GBot
